import Mathlib

/-!
Verification of the Snowball stemming engine in `snowball.py` (texsa repository).

Words are modelled as `List Char`.  Python string primitives used by the source are
embedded as executable Lean functions: `word[:-k]` is `sdrop`, `word[-k]` is `pyIdx`
(at call sites that the source length-guards) or the `Option`-valued `idxN` (at call
sites where CPython would raise `IndexError` when out of range), `str.endswith` is the
suffix relation `<:+`, and `str.lower` is `pyLower` character-wise (ASCII range, the
range the stemmer manipulates).  Each `for suffix in TABLE: if word.endswith(suffix):
BODY; break` loop of `EnglishStemmer.stem` is the generic `ruleLoop` applied to a
per-step action that mirrors the corresponding BODY.
-/

set_option maxRecDepth 8000

namespace Texsa

/-- The ASCII uppercase alphabet, used to state the no-uppercase-output property. -/
def asciiUppercase : List Char :=
  ['A','B','C','D','E','F','G','H','I','J','K','L','M',
   'N','O','P','Q','R','S','T','U','V','W','X','Y','Z']

/-- Whether a character is an ASCII uppercase letter. -/
def isAsciiUpper (c : Char) : Bool := decide (c ∈ asciiUppercase)

/-- Python `str.lower()` per character, over the ASCII range the stemmer works with. -/
def pyLower (c : Char) : Char :=
  if c = 'A' then 'a' else if c = 'B' then 'b' else if c = 'C' then 'c'
  else if c = 'D' then 'd' else if c = 'E' then 'e' else if c = 'F' then 'f'
  else if c = 'G' then 'g' else if c = 'H' then 'h' else if c = 'I' then 'i'
  else if c = 'J' then 'j' else if c = 'K' then 'k' else if c = 'L' then 'l'
  else if c = 'M' then 'm' else if c = 'N' then 'n' else if c = 'O' then 'o'
  else if c = 'P' then 'p' else if c = 'Q' then 'q' else if c = 'R' then 'r'
  else if c = 'S' then 's' else if c = 'T' then 't' else if c = 'U' then 'u'
  else if c = 'V' then 'v' else if c = 'W' then 'w' else if c = 'X' then 'x'
  else if c = 'Y' then 'y' else if c = 'Z' then 'z' else c

/-- Python slice `w[:-k]` (clamped to the empty string when `k ≥ len w`). -/
def sdrop (w : List Char) (k : Nat) : List Char := w.take (w.length - k)

/-- Python `w[-k]` at call sites the source length-guards (always in range there). -/
def pyIdx (w : List Char) (k : Nat) : Char := w.getD (w.length - k) ' '

/-- Python `w[-k]` at call sites the source does not guard: `none` models the
`IndexError` CPython raises when `k > len w`. -/
def idxN (w : List Char) (k : Nat) : Option Char :=
  if 1 ≤ k ∧ k ≤ w.length then some (pyIdx w k) else none

/-- The `word`, `r1`, `r2` local variables of `EnglishStemmer.stem`. -/
structure EState where
  word : List Char
  r1 : List Char
  r2 : List Char
deriving DecidableEq

/-- The scanning loop of `_r1r2_standard` (snowball.py lines 150-153 and 155-158):
find the first position `i ≥ 1` with `word[i]` a non-vowel and `word[i-1]` a vowel and
return `word[i+1:]`, or the empty string if there is none.  `prev` carries `word[i-1]`. -/
def r1Scan (v : List Char) : Char → List Char → List Char
  | _, [] => []
  | prev, c :: cs => if c ∉ v ∧ prev ∈ v then cs else r1Scan v c cs

/-- One region step: the loop above started at `i = 1`. -/
def r1Region (w v : List Char) : List Char :=
  match w with
  | [] => []
  | c :: cs => r1Scan v c cs

/-- `_StandardStemmer._r1r2_standard` (snowball.py lines 120-160): R1 by the first
loop over `word`, R2 by the literally identical second loop over R1. -/
def r1r2Standard (w v : List Char) : List Char × List Char :=
  (r1Region w v, r1Region (r1Region w v) v)

/-- First branch loop of `_rv_standard` (lines 189-192): scan from position 2 for a
vowel, return the suffix after it. -/
def rvScanVowel (v : List Char) : List Char → List Char
  | [] => []
  | c :: cs => if c ∈ v then cs else rvScanVowel v cs

/-- Second branch loop of `_rv_standard` (lines 195-198): scan from position 2 for a
non-vowel, return the suffix after it. -/
def rvScanCons (v : List Char) : List Char → List Char
  | [] => []
  | c :: cs => if c ∉ v then cs else rvScanCons v cs

/-- `_StandardStemmer._rv_standard` (snowball.py lines 164-202).  Note that the
source's `word[:2] in vowels` is Python substring containment of the two-character
slice in the vowel string, embedded here as the list-infix relation `<:+:`. -/
def rvStandard (w v : List Char) : List Char :=
  if 2 ≤ w.length then
    if w.getD 1 ' ' ∉ v then rvScanVowel v (w.drop 2)
    else if (w.take 2) <:+: v then rvScanCons v (w.drop 2)
    else w.drop 3
  else []

/-- `EnglishStemmer.__vowels`. -/
def vowels : List Char := ['a','e','i','o','u','y']

/-- `EnglishStemmer.__double_consonants`. -/
def doubleConsonants : List (List Char) :=
  (["bb","dd","ff","gg","mm","nn","pp","rr","tt"]).map String.toList

/-- `EnglishStemmer.__li_ending`. -/
def liEnding : List Char := ['c','d','e','g','h','k','m','n','r','t']

/-- The apostrophe character `\x27`. -/
def aposChar : Char := '\''

/-- `EnglishStemmer.__step0_suffixes`: `("'s'", "'s", "'")`. -/
def step0Suffixes : List (List Char) :=
  [[aposChar, 's', aposChar], [aposChar, 's'], [aposChar]]

/-- `EnglishStemmer.__step1a_suffixes`. -/
def step1aSuffixes : List (List Char) :=
  (["sses","ied","ies","us","ss","s"]).map String.toList

/-- `EnglishStemmer.__step1b_suffixes`. -/
def step1bSuffixes : List (List Char) :=
  (["eedly","ingly","edly","eed","ing","ed"]).map String.toList

/-- `EnglishStemmer.__step2_suffixes`. -/
def step2Suffixes : List (List Char) :=
  (["ization","ational","fulness","ousness","iveness","tional","biliti","lessli",
    "entli","ation","alism","aliti","ousli","iviti","fulli","enci","anci","abli",
    "izer","ator","alli","bli","ogi","li"]).map String.toList

/-- `EnglishStemmer.__step3_suffixes`. -/
def step3Suffixes : List (List Char) :=
  (["ational","tional","alize","icate","iciti","ative","ical","ness","ful"]).map
    String.toList

/-- `EnglishStemmer.__step4_suffixes`. -/
def step4Suffixes : List (List Char) :=
  (["ement","ance","ence","able","ible","ment","ant","ent","ism","ate","iti","ous",
    "ive","ize","ion","al","er","ic"]).map String.toList

/-- `EnglishStemmer.__special_words` (snowball.py lines 255-294). -/
def specialWords : List (List Char × List Char) :=
  ([("skis","ski"), ("skies","sky"), ("dying","die"), ("lying","lie"), ("tying","tie"),
    ("idly","idl"), ("gently","gentl"), ("ugly","ugli"), ("early","earli"),
    ("only","onli"), ("singly","singl"), ("sky","sky"), ("news","news"),
    ("howe","howe"), ("atlas","atlas"), ("cosmos","cosmos"), ("bias","bias"),
    ("andes","andes"), ("inning","inning"), ("innings","inning"), ("outing","outing"),
    ("outings","outing"), ("canning","canning"), ("cannings","canning"),
    ("herring","herring"), ("herrings","herring"), ("earring","earring"),
    ("earrings","earring"), ("proceed","proceed"), ("proceeds","proceed"),
    ("proceeded","proceed"), ("proceeding","proceed"), ("exceed","exceed"),
    ("exceeds","exceed"), ("exceeded","exceed"), ("exceeding","exceed"),
    ("succeed","succeed"), ("succeeds","succeed"), ("succeeded","succeed"),
    ("succeeding","succeed")]).map (fun p => (p.1.toList, p.2.toList))

/-- The loop shape shared by every suffix-rule step of `EnglishStemmer.stem`:
`for suffix in TABLE: if word.endswith(suffix): BODY; break`.  The first suffix that
tail-matches `word` runs its body (and only it, the loop then `break`s); an action
returns `none` when its body would raise `IndexError`. -/
def ruleLoop (L : List (List Char)) (action : List Char → EState → Option EState)
    (st : EState) : Option EState :=
  match L with
  | [] => some st
  | s :: rest => if s <:+ st.word then action s st else ruleLoop rest action st

/-- The claimed semantics of a step, for comparison with `ruleLoop`: the first rule in
table order whose suffix tail-matches decides the whole step. -/
def applyFirstMatch (L : List (List Char)) (action : List Char → EState → Option EState)
    (st : EState) : Option EState :=
  match L.find? (fun s => decide (s <:+ st.word)) with
  | none => some st
  | some s => action s st

/-- Truncate `word`, `r1`, `r2` by `k` characters (the strip pattern of the source). -/
def trunc (k : Nat) (st : EState) : EState :=
  { word := sdrop st.word k, r1 := sdrop st.r1 k, r2 := sdrop st.r2 k }

/-- The replace pattern of the source: `word = word[:-k] + rep`, with the source's
length-guarded updates of `r1`/`r2`; `r2e` is the value of the `r2` else-branch
(`""` in most rules, `"e"` in the ational/ation/ator and iveness/iviti rules). -/
def replaceSuffix (k : Nat) (rep : List Char) (r2e : List Char) (st : EState) : EState :=
  { word := sdrop st.word k ++ rep,
    r1 := if k ≤ st.r1.length then sdrop st.r1 k ++ rep else [],
    r2 := if k ≤ st.r2.length then sdrop st.r2 k ++ rep else r2e }

/-- Whether a vowel occurs in `l` (the `for letter in ...` searches of steps 1a/1b). -/
def containsVowel (l : List Char) : Bool := l.any fun c => decide (c ∈ vowels)

/-- Whether `w` ends with one of the suffixes in `L` (tuple `endswith`). -/
def endswithAny (w : List Char) (L : List (List Char)) : Bool :=
  L.any fun s => decide (s <:+ w)

/-- STEP 0 body (snowball.py lines 351-356). -/
def step0Action (s : List Char) (st : EState) : Option EState :=
  some (trunc s.length st)

def step0 (st : EState) : Option EState := ruleLoop step0Suffixes step0Action st

/-- STEP 1a body (snowball.py lines 359-387).  The suffixes `us` and `ss` match no
branch of the body, so they only `break`. -/
def step1aAction (s : List Char) (st : EState) : Option EState :=
  if s = "sses".toList then some (trunc 2 st)
  else if s = "ied".toList ∨ s = "ies".toList then
    if 1 < (sdrop st.word s.length).length then some (trunc 2 st)
    else some (trunc 1 st)
  else if s = "s".toList then
    if containsVowel (sdrop st.word 2) then some (trunc 1 st) else some st
  else some st

def step1a (st : EState) : Option EState := ruleLoop step1aSuffixes step1aAction st

/-- The post-strip repairs of STEP 1b (snowball.py lines 417-445), applied to the
already-stripped state. -/
def step1bSub (st : EState) : EState :=
  if endswithAny st.word (["at","bl","iz"].map String.toList) then
    let word := st.word ++ ['e']
    let r1 := st.r1 ++ ['e']
    { word := word, r1 := r1,
      r2 := if 5 < word.length ∨ 3 ≤ r1.length then st.r2 ++ ['e'] else st.r2 }
  else if endswithAny st.word doubleConsonants then trunc 1 st
  else if (st.r1 = [] ∧ 3 ≤ st.word.length ∧ pyIdx st.word 1 ∉ vowels ∧
           pyIdx st.word 1 ∉ ['w','x','Y'] ∧ pyIdx st.word 2 ∈ vowels ∧
           pyIdx st.word 3 ∉ vowels)
          ∨ (st.r1 = [] ∧ st.word.length = 2 ∧ st.word.getD 0 ' ' ∈ vowels ∧
             st.word.getD 1 ' ' ∉ vowels) then
    { word := st.word ++ ['e'],
      r1 := if 0 < st.r1.length then st.r1 ++ ['e'] else st.r1,
      r2 := if 0 < st.r2.length then st.r2 ++ ['e'] else st.r2 }
  else st

/-- STEP 1b body (snowball.py lines 390-446). -/
def step1bAction (s : List Char) (st : EState) : Option EState :=
  if s = "eed".toList ∨ s = "eedly".toList then
    if s <:+ st.r1 then some (replaceSuffix s.length ("ee".toList) [] st)
    else some st
  else
    if containsVowel (sdrop st.word s.length) then some (step1bSub (trunc s.length st))
    else some st

def step1b (st : EState) : Option EState := ruleLoop step1bSuffixes step1bAction st

/-- STEP 1c (snowball.py lines 449-459). -/
def step1c (st : EState) : EState :=
  if 2 < st.word.length ∧ pyIdx st.word 1 ∈ ['y','Y'] ∧ pyIdx st.word 2 ∉ vowels then
    { word := sdrop st.word 1 ++ ['i'],
      r1 := if 1 ≤ st.r1.length then sdrop st.r1 1 ++ ['i'] else [],
      r2 := if 1 ≤ st.r2.length then sdrop st.r2 1 ++ ['i'] else [] }
  else st

/-- STEP 2 body (snowball.py lines 462-585).  In the `ogi` and `li` rules the source
reads `word[-4]` / `word[-3]` without a length guard, modelled through `idxN`. -/
def step2Action (s : List Char) (st : EState) : Option EState :=
  if s <:+ st.r1 then
    if s = "tional".toList then some (trunc 2 st)
    else if s = "enci".toList ∨ s = "anci".toList ∨ s = "abli".toList then
      some (replaceSuffix 1 ['e'] [] st)
    else if s = "entli".toList then some (trunc 2 st)
    else if s = "izer".toList ∨ s = "ization".toList then
      some (replaceSuffix s.length ("ize".toList) [] st)
    else if s = "ational".toList ∨ s = "ation".toList ∨ s = "ator".toList then
      some (replaceSuffix s.length ("ate".toList) ['e'] st)
    else if s = "alism".toList ∨ s = "aliti".toList ∨ s = "alli".toList then
      some (replaceSuffix s.length ("al".toList) [] st)
    else if s = "fulness".toList then some (trunc 4 st)
    else if s = "ousli".toList ∨ s = "ousness".toList then
      some (replaceSuffix s.length ("ous".toList) [] st)
    else if s = "iveness".toList ∨ s = "iviti".toList then
      some (replaceSuffix s.length ("ive".toList) ['e'] st)
    else if s = "biliti".toList ∨ s = "bli".toList then
      some (replaceSuffix s.length ("ble".toList) [] st)
    else if s = "ogi".toList then
      match idxN st.word 4 with
      | none => none
      | some c => if c = 'l' then some (trunc 1 st) else some st
    else if s = "fulli".toList ∨ s = "lessli".toList then some (trunc 2 st)
    else if s = "li".toList then
      match idxN st.word 3 with
      | none => none
      | some c => if c ∈ liEnding then some (trunc 2 st) else some st
    else some st
  else some st

def step2 (st : EState) : Option EState := ruleLoop step2Suffixes step2Action st

/-- STEP 3 body (snowball.py lines 588-636). -/
def step3Action (s : List Char) (st : EState) : Option EState :=
  if s <:+ st.r1 then
    if s = "tional".toList then some (trunc 2 st)
    else if s = "ational".toList then
      some (replaceSuffix s.length ("ate".toList) [] st)
    else if s = "alize".toList then some (trunc 3 st)
    else if s = "icate".toList ∨ s = "iciti".toList ∨ s = "ical".toList then
      some (replaceSuffix s.length ("ic".toList) [] st)
    else if s = "ful".toList ∨ s = "ness".toList then some (trunc s.length st)
    else if s = "ative".toList ∧ s <:+ st.r2 then some (trunc 5 st)
    else some st
  else some st

def step3 (st : EState) : Option EState := ruleLoop step3Suffixes step3Action st

/-- STEP 4 body (snowball.py lines 639-651).  The `ion` rule reads `word[-4]` without
a length guard. -/
def step4Action (s : List Char) (st : EState) : Option EState :=
  if s <:+ st.r2 then
    if s = "ion".toList then
      match idxN st.word 4 with
      | none => none
      | some c => if c ∈ ['s','t'] then some (trunc 3 st) else some st
    else some (trunc s.length st)
  else some st

def step4 (st : EState) : Option EState := ruleLoop step4Suffixes step4Action st

/-- The `elif` chain of STEP 5 after its first condition (lines 656-663). -/
def step5Rest (st : EState) : EState :=
  if (['e'] : List Char) <:+ st.r2 then { st with word := sdrop st.word 1 }
  else if (['e'] : List Char) <:+ st.r1 then
    if 4 ≤ st.word.length ∧ (pyIdx st.word 2 ∈ vowels ∨ pyIdx st.word 2 ∈ ['w','x','Y'] ∨
        pyIdx st.word 3 ∉ vowels ∨ pyIdx st.word 4 ∈ vowels) then
      { st with word := sdrop st.word 1 }
    else st
  else st

/-- STEP 5 (snowball.py lines 653-663).  `word[-2]` is evaluated (unguarded) as soon
as `r2.endswith("l")` holds.  The region variables are not updated by this step. -/
def step5 (st : EState) : Option EState :=
  if (['l'] : List Char) <:+ st.r2 then
    match idxN st.word 2 with
    | none => none
    | some c => if c = 'l' then some { st with word := sdrop st.word 1 }
                else some (step5Rest st)
  else some (step5Rest st)

/-- Apostrophe normalization (lines 316-318): the three Unicode apostrophe variants
are replaced by `\x27`. -/
def aposNorm (c : Char) : Char :=
  if c = '’' ∨ c = '‘' ∨ c = '‛' then aposChar else c

/-- Drop a single leading apostrophe (lines 320-321). -/
def stripLeadApos (w : List Char) : List Char :=
  match w with
  | c :: cs => if c = aposChar then cs else w
  | [] => w

/-- Mark a leading `y` (lines 323-324). -/
def yInit (w : List Char) : List Char :=
  match w with
  | c :: cs => if c = 'y' then 'Y' :: cs else w
  | [] => w

/-- The `y`-marking loop (lines 326-328), scanning from position 1; `prev` is the
character at position `i-1` of the updated word. -/
def markY (v : List Char) : Char → List Char → List Char
  | _, [] => []
  | prev, c :: cs =>
    if prev ∈ v ∧ c = 'y' then 'Y' :: markY v 'Y' cs else c :: markY v c cs

def markYAll (w : List Char) : List Char :=
  match w with
  | c :: cs => c :: markY vowels c cs
  | [] => []

/-- Region computation of `EnglishStemmer.stem` (lines 336-347): the gener/commun/
arsen override, otherwise `_r1r2_standard`. -/
def engR1R2 (w : List Char) : List Char × List Char :=
  if "gener".toList <+: w ∨ "commun".toList <+: w ∨ "arsen".toList <+: w then
    let r1 := if "gener".toList <+: w ∨ "arsen".toList <+: w then w.drop 5
              else w.drop 6
    (r1, r1Region r1 vowels)
  else r1r2Standard w vowels

/-- The state entering STEP 0: normalization (lines 316-328) and initial regions
(lines 333-347), starting from the already lowercased word. -/
def initialState (w : List Char) : EState :=
  let w1 := w.map aposNorm
  let w2 := stripLeadApos w1
  let w3 := markYAll (yInit w2)
  let rs := engR1R2 w3
  { word := w3, r1 := rs.1, r2 := rs.2 }

/-- The final `word.replace("Y", "y")` (line 666). -/
def unY (c : Char) : Char := if c = 'Y' then 'y' else c

/-- STEPS 0 through 5 in pipeline order. -/
def runSteps (st : EState) : Option EState := do
  let st ← step0 st
  let st ← step1a st
  let st ← step1b st
  let st := step1c st
  let st ← step2 st
  let st ← step3 st
  let st ← step4 st
  step5 st

/-- `EnglishStemmer.stem` (snowball.py lines 296-669).  `none` models a raised
exception. -/
def englishStem (w : List Char) : Option (List Char) :=
  let word := w.map pyLower
  if word.length ≤ 2 then some word
  else
    match List.lookup word specialWords with
    | some s => some s
    | none => (runSteps (initialState word)).map fun st => st.word.map unY

/-- Python `str.capitalize()`: first character uppercased, the rest lowercased. -/
def pyCapitalize (w : List Char) : List Char :=
  match w with
  | [] => []
  | c :: cs => c.toUpper :: cs.map pyLower

/-- `SnowballStemmer.languages` (snowball.py lines 60-62). -/
def snowballLanguages : List (List Char) :=
  (["danish","dutch","english","finnish","french","german","hungarian","italian",
    "norwegian","polish","porter","portuguese","romanian","russian","spanish",
    "swedish"]).map String.toList

/-- The module-level class names `globals()` of snowball.py can resolve (the import
of `PorterStemmer` and the four classes defined in the file). -/
def snowballModuleClasses : List (List Char) :=
  (["PorterStemmer","SnowballStemmer","_LanguageSpecificStemmer","_StandardStemmer",
    "EnglishStemmer"]).map String.toList

/-- Possible outcomes of `SnowballStemmer.__init__`. -/
inductive InitOutcome where
  | ok (cls : List Char)
  | valueError (language : List Char)
  | keyError (cls : List Char)
deriving DecidableEq

/-- `SnowballStemmer.__init__` (snowball.py lines 64-69): membership test in
`languages`, then `globals()[language.capitalize() + "Stemmer"]`; a name absent from
the module globals raises `KeyError`. -/
def snowballStemmerInit (language : List Char) : InitOutcome :=
  if language ∈ snowballLanguages then
    let cls := pyCapitalize language ++ "Stemmer".toList
    if cls ∈ snowballModuleClasses then InitOutcome.ok cls
    else InitOutcome.keyError cls
  else InitOutcome.valueError language

/-- The region invariant claimed by the spec for the state after each step. -/
def RegionInv (st : EState) : Prop :=
  st.r2.length ≤ st.r1.length ∧ st.r1.length ≤ st.word.length ∧
  st.r2 <:+ st.r1 ∧ st.r1 <:+ st.word

/-- Any ASCII uppercase character in the working word is the internal `Y` marker. -/
def CharInvW (w : List Char) : Prop := ∀ c ∈ w, isAsciiUpper c = true → c = 'Y'

/-- The internal invariant carried through the steps: the suffix chain, the gap of at
least 2 between a nonempty `r1` and `word`, and the character invariant. -/
def Inv3 (st : EState) : Prop :=
  st.r1 <:+ st.word ∧ st.r2 <:+ st.r1 ∧
  (st.r1 ≠ [] → st.r1.length + 2 ≤ st.word.length) ∧ CharInvW st.word

/-- Gap of at least 2 between a nonempty `r2` and `r1`; holds up to step 1b. -/
def Gap2P (st : EState) : Prop := st.r2 ≠ [] → st.r2.length + 2 ≤ st.r1.length

/-- The spec's reading of the vowel-vowel branch of RV: when the first two characters
are both individually vowels, RV is the suffix after the next non-vowel found
scanning from position 2 (empty if none). -/
def rvSpecBothVowels (w v : List Char) : List Char :=
  ((w.drop 2).dropWhile (fun c => decide (c ∈ v))).tail

/-! ### Basic lemmas about the string primitives -/

theorem sdrop_length (w : List Char) (k : Nat) : (sdrop w k).length = w.length - k := by
  simp only [sdrop, List.length_take]
  omega

theorem mem_of_mem_sdrop {w : List Char} {k : Nat} {c : Char} (h : c ∈ sdrop w k) :
    c ∈ w :=
  List.take_subset _ _ h

theorem sdrop_append {p a : List Char} {k : Nat} (h : k ≤ a.length) :
    sdrop (p ++ a) k = p ++ sdrop a k := by
  unfold sdrop
  rw [List.length_append, List.take_append_eq_append_take,
    List.take_of_length_le (by omega : p.length ≤ p.length + a.length - k)]
  congr 2
  omega

theorem sdrop_eq_nil {w : List Char} {k : Nat} (h : w.length ≤ k) : sdrop w k = [] := by
  unfold sdrop
  rw [Nat.sub_eq_zero_of_le h]
  rfl

theorem suffix_sdrop {a b : List Char} (k : Nat) (h : a <:+ b) :
    sdrop a k <:+ sdrop b k := by
  obtain ⟨p, rfl⟩ := h
  by_cases hk : k ≤ a.length
  · rw [sdrop_append hk]
    exact List.suffix_append p _
  · rw [sdrop_eq_nil (by omega)]
    exact List.nil_suffix

theorem suffix_append_right {a b r : List Char} (h : a <:+ b) : a ++ r <:+ b ++ r := by
  obtain ⟨p, rfl⟩ := h
  exact ⟨p, (List.append_assoc p a r).symm⟩

theorem suffix_of_suffix_append {a r : List Char} (x : List Char) (h : a <:+ r) :
    a <:+ x ++ r :=
  h.trans (List.suffix_append x r)

theorem idxN_eq_some {w : List Char} {k : Nat} (h1 : 1 ≤ k) (h2 : k ≤ w.length) :
    idxN w k = some (pyIdx w k) := by
  unfold idxN
  rw [if_pos ⟨h1, h2⟩]

/-! ### Character lemmas -/

theorem isAsciiUpper_pyLower (c : Char) : isAsciiUpper (pyLower c) = false := by
  by_cases h : c ∈ asciiUppercase
  · fin_cases h <;> rfl
  · have h' : isAsciiUpper c = false := decide_eq_false h
    have hne : ∀ d ∈ asciiUppercase, c ≠ d := fun d hd he => h (he ▸ hd)
    have hpl : pyLower c = c := by
      unfold pyLower
      rw [if_neg (hne 'A' (by decide)), if_neg (hne 'B' (by decide)),
        if_neg (hne 'C' (by decide)), if_neg (hne 'D' (by decide)),
        if_neg (hne 'E' (by decide)), if_neg (hne 'F' (by decide)),
        if_neg (hne 'G' (by decide)), if_neg (hne 'H' (by decide)),
        if_neg (hne 'I' (by decide)), if_neg (hne 'J' (by decide)),
        if_neg (hne 'K' (by decide)), if_neg (hne 'L' (by decide)),
        if_neg (hne 'M' (by decide)), if_neg (hne 'N' (by decide)),
        if_neg (hne 'O' (by decide)), if_neg (hne 'P' (by decide)),
        if_neg (hne 'Q' (by decide)), if_neg (hne 'R' (by decide)),
        if_neg (hne 'S' (by decide)), if_neg (hne 'T' (by decide)),
        if_neg (hne 'U' (by decide)), if_neg (hne 'V' (by decide)),
        if_neg (hne 'W' (by decide)), if_neg (hne 'X' (by decide)),
        if_neg (hne 'Y' (by decide)), if_neg (hne 'Z' (by decide))]
    rw [hpl, h']

theorem noUpper_map_pyLower (w : List Char) :
    ∀ c ∈ w.map pyLower, isAsciiUpper c = false := by
  intro c hc
  rw [List.mem_map] at hc
  obtain ⟨d, _, rfl⟩ := hc
  exact isAsciiUpper_pyLower d

theorem noUpper_aposNorm {c : Char} (h : isAsciiUpper c = false) :
    isAsciiUpper (aposNorm c) = false := by
  unfold aposNorm
  split
  · rfl
  · exact h

theorem mem_stripLeadApos {w : List Char} {c : Char} (h : c ∈ stripLeadApos w) :
    c ∈ w := by
  unfold stripLeadApos at h
  cases w with
  | nil => exact h
  | cons d ds =>
    dsimp only at h
    split at h
    · exact List.mem_cons_of_mem d h
    · exact h

theorem mem_markY {v : List Char} {l : List Char} {c : Char} :
    ∀ {p : Char}, c ∈ markY v p l → c = 'Y' ∨ c ∈ l := by
  induction l with
  | nil => intro p h; simp [markY] at h
  | cons d ds ih =>
    intro p h
    unfold markY at h
    split at h
    · rcases List.mem_cons.mp h with rfl | h'
      · exact Or.inl rfl
      · rcases ih h' with rfl | h''
        · exact Or.inl rfl
        · exact Or.inr (List.mem_cons_of_mem d h'')
    · rcases List.mem_cons.mp h with rfl | h'
      · exact Or.inr (List.mem_cons_self _ _)
      · rcases ih h' with rfl | h''
        · exact Or.inl rfl
        · exact Or.inr (List.mem_cons_of_mem d h'')

theorem yInit_cons (d : Char) (ds : List Char) :
    yInit (d :: ds) = if d = 'y' then 'Y' :: ds else d :: ds := rfl

theorem markYAll_cons (d : Char) (ds : List Char) :
    markYAll (d :: ds) = d :: markY vowels d ds := rfl

theorem charInvW_markYAll_yInit {w : List Char}
    (hw : ∀ c ∈ w, isAsciiUpper c = false) : CharInvW (markYAll (yInit w)) := by
  intro c hc hup
  cases w with
  | nil => simp [yInit, markYAll] at hc
  | cons d ds =>
    have hds : ∀ c ∈ ds, isAsciiUpper c = false := fun c hc =>
      hw c (List.mem_cons_of_mem d hc)
    rw [yInit_cons] at hc
    by_cases hd : d = 'y'
    · rw [if_pos hd, markYAll_cons] at hc
      rcases List.mem_cons.mp hc with rfl | h'
      · rfl
      · rcases mem_markY h' with rfl | h''
        · rfl
        · rw [hds c h''] at hup; cases hup
    · rw [if_neg hd, markYAll_cons] at hc
      rcases List.mem_cons.mp hc with rfl | h'
      · rw [hw _ (List.mem_cons_self _ _)] at hup; cases hup
      · rcases mem_markY h' with rfl | h''
        · rfl
        · rw [hds c h''] at hup; cases hup

theorem charInvW_initialState (w : List Char)
    (hw : ∀ c ∈ w, isAsciiUpper c = false) : CharInvW (initialState w).word := by
  show CharInvW (markYAll (yInit (stripLeadApos (w.map aposNorm))))
  refine charInvW_markYAll_yInit ?_
  intro c hc
  have hc' := mem_stripLeadApos hc
  rw [List.mem_map] at hc'
  obtain ⟨d, hd, rfl⟩ := hc'
  exact noUpper_aposNorm (hw d hd)

/-! ### Region computation lemmas -/

theorem r1Scan_spec (v : List Char) (l : List Char) :
    ∀ p : Char, r1Scan v p l = [] ∨
      (r1Scan v p l <:+ l ∧ (r1Scan v p l).length + 1 ≤ l.length) := by
  induction l with
  | nil => intro p; exact Or.inl rfl
  | cons c cs ih =>
    intro p
    unfold r1Scan
    split
    · right
      exact ⟨⟨[c], rfl⟩, by simp⟩
    · rcases ih c with h | ⟨h1, h2⟩
      · exact Or.inl h
      · right
        refine ⟨h1.trans ⟨[c], rfl⟩, ?_⟩
        simp only [List.length_cons]
        omega

theorem r1Region_cons (c : Char) (cs v : List Char) :
    r1Region (c :: cs) v = r1Scan v c cs := rfl

theorem r1Region_suffix (w v : List Char) : r1Region w v <:+ w := by
  cases w with
  | nil => exact List.nil_suffix
  | cons c cs =>
    rw [r1Region_cons]
    rcases r1Scan_spec v cs c with h | ⟨h1, _⟩
    · rw [h]; exact List.nil_suffix
    · exact h1.trans ⟨[c], rfl⟩

theorem r1Region_gap (w v : List Char) (h : r1Region w v ≠ []) :
    (r1Region w v).length + 2 ≤ w.length := by
  cases w with
  | nil => exact absurd rfl h
  | cons c cs =>
    rw [r1Region_cons] at h ⊢
    rcases r1Scan_spec v cs c with h0 | ⟨_, h2⟩
    · exact absurd h0 h
    · simp only [List.length_cons]
      omega

theorem engR1R2_spec (w : List Char) :
    (engR1R2 w).1 <:+ w ∧ ((engR1R2 w).1 ≠ [] → (engR1R2 w).1.length + 2 ≤ w.length) ∧
    (engR1R2 w).2 <:+ (engR1R2 w).1 ∧
    ((engR1R2 w).2 ≠ [] → (engR1R2 w).2.length + 2 ≤ (engR1R2 w).1.length) := by
  unfold engR1R2
  split
  · dsimp only
    split
    · refine ⟨List.drop_suffix 5 w, ?_, r1Region_suffix _ _, r1Region_gap _ _⟩
      intro hne
      have := List.length_pos.mpr hne
      rw [List.length_drop] at this ⊢
      omega
    · refine ⟨List.drop_suffix 6 w, ?_, r1Region_suffix _ _, r1Region_gap _ _⟩
      intro hne
      have := List.length_pos.mpr hne
      rw [List.length_drop] at this ⊢
      omega
  · exact ⟨r1Region_suffix _ _, r1Region_gap _ _, r1Region_suffix _ _, r1Region_gap _ _⟩

theorem initialState_inv (w : List Char)
    (hw : ∀ c ∈ w, isAsciiUpper c = false) :
    Inv3 (initialState w) ∧ Gap2P (initialState w) := by
  have hspec := engR1R2_spec (markYAll (yInit (stripLeadApos (w.map aposNorm))))
  have hchar := charInvW_initialState w hw
  exact ⟨⟨hspec.1, hspec.2.2.1, hspec.2.1, hchar⟩, hspec.2.2.2⟩

/-! ### Invariant preservation by the editing patterns -/

theorem trunc_inv3 {st : EState} (k : Nat) (h : Inv3 st) : Inv3 (trunc k st) := by
  obtain ⟨h1, h2, h3, h4⟩ := h
  refine ⟨suffix_sdrop k h1, suffix_sdrop k h2, ?_, ?_⟩
  · intro hne
    show (sdrop st.r1 k).length + 2 ≤ (sdrop st.word k).length
    have hlt : k < st.r1.length := by
      by_contra hk
      exact hne (sdrop_eq_nil (by omega))
    have hr1ne : st.r1 ≠ [] := by
      intro h0
      rw [h0] at hlt
      simp at hlt
    have := h3 hr1ne
    rw [sdrop_length, sdrop_length]
    omega
  · intro c hc
    exact h4 c (mem_of_mem_sdrop hc)

theorem trunc_gap2 {st : EState} (k : Nat) (hg : Gap2P st) : Gap2P (trunc k st) := by
  intro hne
  show (sdrop st.r2 k).length + 2 ≤ (sdrop st.r1 k).length
  have hlt : k < st.r2.length := by
    by_contra hk
    exact hne (sdrop_eq_nil (by omega))
  have hr2ne : st.r2 ≠ [] := by
    intro h0
    rw [h0] at hlt
    simp at hlt
  have := hg hr2ne
  rw [sdrop_length, sdrop_length]
  omega

theorem replaceSuffix_inv3 {st : EState} {k : Nat} {rep r2e : List Char}
    (h : Inv3 st) (hk1 : 1 ≤ k) (hkr1 : k ≤ st.r1.length) (_hrep : rep ≠ [])
    (hrepc : ∀ c ∈ rep, isAsciiUpper c = false)
    (hr2e : r2e = [] ∨ (r2e = ['e'] ∧ ['e'] <:+ rep)) :
    Inv3 (replaceSuffix k rep r2e st) := by
  obtain ⟨h1, h2, h3, h4⟩ := h
  have hkw : k ≤ st.word.length := le_trans hkr1 h1.length_le
  have hr1ne : st.r1 ≠ [] := by
    intro h0
    rw [h0] at hkr1
    simp only [List.length_nil] at hkr1
    omega
  have hgap := h3 hr1ne
  unfold replaceSuffix
  refine ⟨?_, ?_, ?_, ?_⟩
  · show (if k ≤ st.r1.length then sdrop st.r1 k ++ rep else []) <:+
      sdrop st.word k ++ rep
    rw [if_pos hkr1]
    exact suffix_append_right (suffix_sdrop k h1)
  · show (if k ≤ st.r2.length then sdrop st.r2 k ++ rep else r2e) <:+
      (if k ≤ st.r1.length then sdrop st.r1 k ++ rep else [])
    rw [if_pos hkr1]
    split
    · exact suffix_append_right (suffix_sdrop k h2)
    · rcases hr2e with rfl | ⟨rfl, he⟩
      · exact List.nil_suffix
      · exact suffix_of_suffix_append _ he
  · intro _
    show (if k ≤ st.r1.length then sdrop st.r1 k ++ rep else []).length + 2 ≤
      (sdrop st.word k ++ rep).length
    rw [if_pos hkr1, List.length_append, List.length_append, sdrop_length,
      sdrop_length]
    omega
  · intro c hc hup
    rcases List.mem_append.mp hc with hc' | hc'
    · exact h4 c (mem_of_mem_sdrop hc') hup
    · rw [hrepc c hc'] at hup
      cases hup

/-! ### The generic suffix-rule loop -/

theorem ruleLoop_nil (action : List Char → EState → Option EState) (st : EState) :
    ruleLoop [] action st = some st := rfl

theorem ruleLoop_cons (s : List Char) (rest : List (List Char))
    (action : List Char → EState → Option EState) (st : EState) :
    ruleLoop (s :: rest) action st =
      if s <:+ st.word then action s st else ruleLoop rest action st := rfl

theorem ruleLoop_pq {P Q : EState → Prop}
    (L : List (List Char)) (action : List Char → EState → Option EState)
    (hPQ : ∀ st, P st → Q st)
    (hact : ∀ s st, P st → ∃ st', action s st = some st' ∧ Q st') :
    ∀ st, P st → ∃ st', ruleLoop L action st = some st' ∧ Q st' := by
  induction L with
  | nil => exact fun st h => ⟨st, rfl, hPQ st h⟩
  | cons s rest ih =>
    intro st h
    rw [ruleLoop_cons]
    split
    · exact hact s st h
    · exact ih st h

theorem find?_suffix_cons (s : List Char) (rest : List (List Char)) (w : List Char) :
    List.find? (fun t => decide (t <:+ w)) (s :: rest) =
      if s <:+ w then some s else List.find? (fun t => decide (t <:+ w)) rest := by
  by_cases h : s <:+ w
  · rw [if_pos h]
    exact List.find?_cons_of_pos _ (by simp [h])
  · rw [if_neg h]
    exact List.find?_cons_of_neg _ (by simp [h])

theorem ruleLoop_eq_firstMatch (L : List (List Char))
    (action : List Char → EState → Option EState) (st : EState) :
    ruleLoop L action st = applyFirstMatch L action st := by
  induction L with
  | nil => rfl
  | cons s rest ih =>
    rw [ruleLoop_cons, ih]
    unfold applyFirstMatch
    rw [find?_suffix_cons]
    by_cases h : s <:+ st.word
    · rw [if_pos h, if_pos h]
    · rw [if_neg h, if_neg h]

/-! ### Invariant preservation by each step -/

theorem step0_sound (st : EState) (h : Inv3 st ∧ Gap2P st) :
    ∃ st', step0 st = some st' ∧ Inv3 st' ∧ Gap2P st' :=
  ruleLoop_pq _ _ (fun _ h => h)
    (fun s _ h => ⟨_, rfl, trunc_inv3 s.length h.1, trunc_gap2 s.length h.2⟩) st h

theorem step1a_sound (st : EState) (h : Inv3 st ∧ Gap2P st) :
    ∃ st', step1a st = some st' ∧ Inv3 st' ∧ Gap2P st' := by
  refine ruleLoop_pq _ _ (fun _ h => h) ?_ st h
  intro s st h
  unfold step1aAction
  repeat' split
  all_goals first
    | exact ⟨_, rfl, trunc_inv3 _ h.1, trunc_gap2 _ h.2⟩
    | exact ⟨_, rfl, h⟩

theorem step1bSub_sound (st : EState) (h : Inv3 st) (hg : Gap2P st) :
    Inv3 (step1bSub st) := by
  obtain ⟨h1, h2, h3, h4⟩ := h
  unfold step1bSub
  split
  · rename_i hend
    have hw2 : 2 ≤ st.word.length := by
      unfold endswithAny at hend
      rw [List.any_eq_true] at hend
      obtain ⟨s, hs, hsw⟩ := hend
      rw [decide_eq_true_eq] at hsw
      have hlen := hsw.length_le
      simp only [List.map_cons, List.map_nil, List.mem_cons, List.not_mem_nil,
        or_false] at hs
      rcases hs with rfl | rfl | rfl <;> exact le_trans (by decide) hlen
    dsimp only
    refine ⟨?_, ?_, ?_, ?_⟩
    · exact suffix_append_right h1
    · split
      · exact suffix_append_right h2
      · rename_i hcond
        by_cases hr2 : st.r2 = []
        · rw [hr2]; exact List.nil_suffix
        · exfalso
          have hgg := hg hr2
          rw [not_or] at hcond
          obtain ⟨-, hc2⟩ := hcond
          rw [List.length_append] at hc2
          simp only [List.length_cons, List.length_nil] at hc2
          omega
    · intro _
      rw [List.length_append, List.length_append]
      simp only [List.length_cons, List.length_nil]
      by_cases hr1 : st.r1 = []
      · have : st.r1.length = 0 := by rw [hr1]; rfl
        omega
      · have := h3 hr1
        omega
    · intro c hc hup
      rcases List.mem_append.mp hc with hc' | hc'
      · exact h4 c hc' hup
      · have := List.mem_singleton.mp hc'
        subst this
        exact absurd hup (by decide)
  · split
    · exact trunc_inv3 1 ⟨h1, h2, h3, h4⟩
    · split
      · rename_i hcond
        have hr1 : st.r1 = [] := by
          rcases hcond with ⟨h0, -⟩ | ⟨h0, -⟩ <;> exact h0
        have hr2 : st.r2 = [] := by
          have h2' := h2
          rw [hr1] at h2'
          exact List.suffix_nil.mp h2'
        rw [hr1, hr2]
        refine ⟨?_, ?_, ?_, ?_⟩
        · simp
        · simp
        · intro hne
          simp at hne
        · intro c hc hup
          rcases List.mem_append.mp hc with hc' | hc'
          · exact h4 c hc' hup
          · have := List.mem_singleton.mp hc'
            subst this
            exact absurd hup (by decide)
      · exact ⟨h1, h2, h3, h4⟩

theorem step1b_sound (st : EState) (h : Inv3 st ∧ Gap2P st) :
    ∃ st', step1b st = some st' ∧ Inv3 st' := by
  refine ruleLoop_pq _ _ (fun st (h : Inv3 st ∧ Gap2P st) => h.1) ?_ st h
  intro s st h
  unfold step1bAction
  split
  · rename_i heq
    split
    · rename_i hsuf
      refine ⟨_, rfl, replaceSuffix_inv3 h.1 ?_ hsuf.length_le (by decide)
        (by decide) (Or.inl rfl)⟩
      rcases heq with rfl | rfl <;> decide
    · exact ⟨_, rfl, h.1⟩
  · split
    · exact ⟨_, rfl, step1bSub_sound _ (trunc_inv3 _ h.1) (trunc_gap2 _ h.2)⟩
    · exact ⟨_, rfl, h.1⟩

theorem step1c_sound (st : EState) (h : Inv3 st) : Inv3 (step1c st) := by
  obtain ⟨h1, h2, h3, h4⟩ := h
  unfold step1c
  split
  · refine ⟨?_, ?_, ?_, ?_⟩
    · show (if 1 ≤ st.r1.length then sdrop st.r1 1 ++ ['i'] else []) <:+
        sdrop st.word 1 ++ ['i']
      split
      · exact suffix_append_right (suffix_sdrop 1 h1)
      · exact List.nil_suffix
    · show (if 1 ≤ st.r2.length then sdrop st.r2 1 ++ ['i'] else []) <:+
        (if 1 ≤ st.r1.length then sdrop st.r1 1 ++ ['i'] else [])
      split
      · rename_i hr2len
        rw [if_pos (le_trans hr2len h2.length_le)]
        exact suffix_append_right (suffix_sdrop 1 h2)
      · exact List.nil_suffix
    · intro hne
      show (if 1 ≤ st.r1.length then sdrop st.r1 1 ++ ['i'] else []).length + 2 ≤
        (sdrop st.word 1 ++ ['i']).length
      by_cases hr1len : 1 ≤ st.r1.length
      · rw [if_pos hr1len]
        have hr1ne : st.r1 ≠ [] := by
          intro h0
          rw [h0] at hr1len
          simp at hr1len
        have := h3 hr1ne
        simp only [List.length_append, List.length_cons, List.length_nil,
          sdrop_length]
        omega
      · exfalso
        apply hne
        show (if 1 ≤ st.r1.length then sdrop st.r1 1 ++ ['i'] else []) = []
        rw [if_neg hr1len]
    · intro c hc hup
      rcases List.mem_append.mp hc with hc' | hc'
      · exact h4 c (mem_of_mem_sdrop hc') hup
      · have := List.mem_singleton.mp hc'
        subst this
        exact absurd hup (by decide)
  · exact ⟨h1, h2, h3, h4⟩

theorem step2Action_sound (s : List Char) (st : EState) (h : Inv3 st) :
    ∃ st', step2Action s st = some st' ∧ Inv3 st' := by
  unfold step2Action
  by_cases hsuf : s <:+ st.r1
  case neg => rw [if_neg hsuf]; exact ⟨_, rfl, h⟩
  rw [if_pos hsuf]
  by_cases e1 : s = "tional".toList
  · rw [if_pos e1]; exact ⟨_, rfl, trunc_inv3 _ h⟩
  rw [if_neg e1]
  by_cases e2 : s = "enci".toList ∨ s = "anci".toList ∨ s = "abli".toList
  · rw [if_pos e2]
    refine ⟨_, rfl, replaceSuffix_inv3 h (by decide) ?_ (by decide) (by decide)
      (Or.inl rfl)⟩
    rcases e2 with rfl | rfl | rfl <;> exact le_trans (by decide) hsuf.length_le
  rw [if_neg e2]
  by_cases e3 : s = "entli".toList
  · rw [if_pos e3]; exact ⟨_, rfl, trunc_inv3 _ h⟩
  rw [if_neg e3]
  by_cases e4 : s = "izer".toList ∨ s = "ization".toList
  · rw [if_pos e4]
    rcases e4 with rfl | rfl <;>
      exact ⟨_, rfl, replaceSuffix_inv3 h (by decide) hsuf.length_le (by decide)
        (by decide) (Or.inl rfl)⟩
  rw [if_neg e4]
  by_cases e5 : s = "ational".toList ∨ s = "ation".toList ∨ s = "ator".toList
  · rw [if_pos e5]
    rcases e5 with rfl | rfl | rfl <;>
      exact ⟨_, rfl, replaceSuffix_inv3 h (by decide) hsuf.length_le (by decide)
        (by decide) (Or.inr ⟨rfl, by decide⟩)⟩
  rw [if_neg e5]
  by_cases e6 : s = "alism".toList ∨ s = "aliti".toList ∨ s = "alli".toList
  · rw [if_pos e6]
    rcases e6 with rfl | rfl | rfl <;>
      exact ⟨_, rfl, replaceSuffix_inv3 h (by decide) hsuf.length_le (by decide)
        (by decide) (Or.inl rfl)⟩
  rw [if_neg e6]
  by_cases e7 : s = "fulness".toList
  · rw [if_pos e7]; exact ⟨_, rfl, trunc_inv3 _ h⟩
  rw [if_neg e7]
  by_cases e8 : s = "ousli".toList ∨ s = "ousness".toList
  · rw [if_pos e8]
    rcases e8 with rfl | rfl <;>
      exact ⟨_, rfl, replaceSuffix_inv3 h (by decide) hsuf.length_le (by decide)
        (by decide) (Or.inl rfl)⟩
  rw [if_neg e8]
  by_cases e9 : s = "iveness".toList ∨ s = "iviti".toList
  · rw [if_pos e9]
    rcases e9 with rfl | rfl <;>
      exact ⟨_, rfl, replaceSuffix_inv3 h (by decide) hsuf.length_le (by decide)
        (by decide) (Or.inr ⟨rfl, by decide⟩)⟩
  rw [if_neg e9]
  by_cases e10 : s = "biliti".toList ∨ s = "bli".toList
  · rw [if_pos e10]
    rcases e10 with rfl | rfl <;>
      exact ⟨_, rfl, replaceSuffix_inv3 h (by decide) hsuf.length_le (by decide)
        (by decide) (Or.inl rfl)⟩
  rw [if_neg e10]
  by_cases e11 : s = "ogi".toList
  · rw [if_pos e11]
    subst e11
    have h3r1 : 3 ≤ st.r1.length := le_trans (by decide) hsuf.length_le
    have hr1ne : st.r1 ≠ [] := by
      intro h0
      rw [h0] at h3r1
      simp at h3r1
    have hgap := h.2.2.1 hr1ne
    rw [idxN_eq_some (by omega) (by omega)]
    dsimp only
    split
    · exact ⟨_, rfl, trunc_inv3 _ h⟩
    · exact ⟨_, rfl, h⟩
  rw [if_neg e11]
  by_cases e12 : s = "fulli".toList ∨ s = "lessli".toList
  · rw [if_pos e12]; exact ⟨_, rfl, trunc_inv3 _ h⟩
  rw [if_neg e12]
  by_cases e13 : s = "li".toList
  · rw [if_pos e13]
    subst e13
    have h2r1 : 2 ≤ st.r1.length := le_trans (by decide) hsuf.length_le
    have hr1ne : st.r1 ≠ [] := by
      intro h0
      rw [h0] at h2r1
      simp at h2r1
    have hgap := h.2.2.1 hr1ne
    rw [idxN_eq_some (by omega) (by omega)]
    dsimp only
    split
    · exact ⟨_, rfl, trunc_inv3 _ h⟩
    · exact ⟨_, rfl, h⟩
  rw [if_neg e13]
  exact ⟨_, rfl, h⟩

theorem step2_sound (st : EState) (h : Inv3 st) :
    ∃ st', step2 st = some st' ∧ Inv3 st' :=
  ruleLoop_pq _ _ (fun _ h => h) step2Action_sound st h

theorem step3Action_sound (s : List Char) (st : EState) (h : Inv3 st) :
    ∃ st', step3Action s st = some st' ∧ Inv3 st' := by
  unfold step3Action
  split
  case isFalse => exact ⟨_, rfl, h⟩
  rename_i hsuf
  split
  case isTrue => exact ⟨_, rfl, trunc_inv3 _ h⟩
  split
  case isTrue =>
    rename_i heq
    subst heq
    exact ⟨_, rfl, replaceSuffix_inv3 h (by decide) hsuf.length_le (by decide)
      (by decide) (Or.inl rfl)⟩
  split
  case isTrue => exact ⟨_, rfl, trunc_inv3 _ h⟩
  split
  case isTrue =>
    rename_i heq
    rcases heq with rfl | rfl | rfl <;>
      exact ⟨_, rfl, replaceSuffix_inv3 h (by decide) hsuf.length_le (by decide)
        (by decide) (Or.inl rfl)⟩
  split
  case isTrue => exact ⟨_, rfl, trunc_inv3 _ h⟩
  split
  case isTrue => exact ⟨_, rfl, trunc_inv3 _ h⟩
  exact ⟨_, rfl, h⟩

theorem step3_sound (st : EState) (h : Inv3 st) :
    ∃ st', step3 st = some st' ∧ Inv3 st' :=
  ruleLoop_pq _ _ (fun _ h => h) step3Action_sound st h

theorem step4Action_sound (s : List Char) (st : EState) (h : Inv3 st) :
    ∃ st', step4Action s st = some st' ∧ Inv3 st' := by
  unfold step4Action
  split
  case isFalse => exact ⟨_, rfl, h⟩
  rename_i hsuf2
  split
  case isTrue =>
    rename_i heq
    subst heq
    have h3r2 : 3 ≤ st.r2.length := le_trans (by decide) hsuf2.length_le
    have h3r1 : 3 ≤ st.r1.length := le_trans h3r2 h.2.1.length_le
    have hr1ne : st.r1 ≠ [] := by
      intro h0
      rw [h0] at h3r1
      simp at h3r1
    have hgap := h.2.2.1 hr1ne
    rw [idxN_eq_some (by omega) (by omega)]
    dsimp only
    split
    · exact ⟨_, rfl, trunc_inv3 _ h⟩
    · exact ⟨_, rfl, h⟩
  exact ⟨_, rfl, trunc_inv3 _ h⟩

theorem step4_sound (st : EState) (h : Inv3 st) :
    ∃ st', step4 st = some st' ∧ Inv3 st' :=
  ruleLoop_pq _ _ (fun _ h => h) step4Action_sound st h

theorem step5Rest_sound (st : EState) (h : Inv3 st) :
    (step5Rest st).r1 = st.r1 ∧ (step5Rest st).r2 = st.r2 ∧
    (step5Rest st).r1.length ≤ (step5Rest st).word.length ∧
    CharInvW (step5Rest st).word := by
  obtain ⟨h1, h2, h3, h4⟩ := h
  unfold step5Rest
  split
  · rename_i he
    have hr2ne : st.r2 ≠ [] := by
      intro h0
      rw [h0] at he
      have := List.suffix_nil.mp he
      simp at this
    have hr1ne : st.r1 ≠ [] := by
      intro h0
      rw [h0] at h2
      exact hr2ne (List.suffix_nil.mp h2)
    have hgap := h3 hr1ne
    refine ⟨rfl, rfl, ?_, ?_⟩
    · show st.r1.length ≤ (sdrop st.word 1).length
      rw [sdrop_length]
      omega
    · intro c hc
      exact h4 c (mem_of_mem_sdrop hc)
  · split
    · split
      · rename_i hre hguard
        have hr1ne : st.r1 ≠ [] := by
          intro h0
          rw [h0] at hre
          have := List.suffix_nil.mp hre
          simp at this
        have hgap := h3 hr1ne
        refine ⟨rfl, rfl, ?_, ?_⟩
        · show st.r1.length ≤ (sdrop st.word 1).length
          rw [sdrop_length]
          omega
        · intro c hc
          exact h4 c (mem_of_mem_sdrop hc)
      · exact ⟨rfl, rfl, h1.length_le, h4⟩
    · exact ⟨rfl, rfl, h1.length_le, h4⟩

theorem step5_sound (st : EState) (h : Inv3 st) :
    ∃ st', step5 st = some st' ∧ st'.r1 = st.r1 ∧ st'.r2 = st.r2 ∧
      st'.r1.length ≤ st'.word.length ∧ CharInvW st'.word := by
  have hInv : Inv3 st := h
  obtain ⟨h1, h2, h3, h4⟩ := h
  unfold step5
  split
  · rename_i hl
    have hr2ne : st.r2 ≠ [] := by
      intro h0
      rw [h0] at hl
      have := List.suffix_nil.mp hl
      simp at this
    have hr1ne : st.r1 ≠ [] := by
      intro h0
      rw [h0] at h2
      exact hr2ne (List.suffix_nil.mp h2)
    have hgap := h3 hr1ne
    rw [idxN_eq_some (by omega) (by omega)]
    dsimp only
    split
    · refine ⟨_, rfl, rfl, rfl, ?_, ?_⟩
      · show st.r1.length ≤ (sdrop st.word 1).length
        rw [sdrop_length]
        omega
      · intro c hc
        exact h4 c (mem_of_mem_sdrop hc)
    · obtain ⟨e1, e2, e3, e4⟩ := step5Rest_sound st hInv
      exact ⟨_, rfl, e1, e2, e3, e4⟩
  · obtain ⟨e1, e2, e3, e4⟩ := step5Rest_sound st hInv
    exact ⟨_, rfl, e1, e2, e3, e4⟩

/-- The whole pipeline: the invariants hold at every intermediate state and every
step succeeds. -/
theorem runSteps_sound (st : EState) (h : Inv3 st ∧ Gap2P st) :
    ∃ s0 s1a s1b s2 s3 s4 s5,
      step0 st = some s0 ∧ Inv3 s0 ∧ Gap2P s0 ∧
      step1a s0 = some s1a ∧ Inv3 s1a ∧ Gap2P s1a ∧
      step1b s1a = some s1b ∧ Inv3 s1b ∧
      Inv3 (step1c s1b) ∧
      step2 (step1c s1b) = some s2 ∧ Inv3 s2 ∧
      step3 s2 = some s3 ∧ Inv3 s3 ∧
      step4 s3 = some s4 ∧ Inv3 s4 ∧
      step5 s4 = some s5 ∧ s5.r1 = s4.r1 ∧ s5.r2 = s4.r2 ∧
        s5.r1.length ≤ s5.word.length ∧ CharInvW s5.word ∧
      runSteps st = some s5 := by
  obtain ⟨s0, e0, h0⟩ := step0_sound st h
  obtain ⟨s1a, e1a, h1a⟩ := step1a_sound s0 h0
  obtain ⟨s1b, e1b, h1b⟩ := step1b_sound s1a h1a
  have h1c := step1c_sound _ h1b
  obtain ⟨s2, e2, hs2⟩ := step2_sound _ h1c
  obtain ⟨s3, e3, hs3⟩ := step3_sound s2 hs2
  obtain ⟨s4, e4, hs4⟩ := step4_sound s3 hs3
  obtain ⟨s5, e5, er1, er2, elen, echar⟩ := step5_sound s4 hs4
  refine ⟨s0, s1a, s1b, s2, s3, s4, s5, e0, h0.1, h0.2, e1a, h1a.1, h1a.2, e1b, h1b,
    h1c, e2, hs2, e3, hs3, e4, hs4, e5, er1, er2, elen, echar, ?_⟩
  unfold runSteps
  rw [e0]
  show (step1a s0 >>= fun st => _) = some s5
  rw [e1a]
  show (step1b s1a >>= fun st => _) = some s5
  rw [e1b]
  show (step2 (step1c s1b) >>= fun st => _) = some s5
  rw [e2]
  show (step3 s2 >>= fun st => _) = some s5
  rw [e3]
  show (step4 s3 >>= fun st => _) = some s5
  rw [e4]
  show step5 s4 = some s5
  exact e5

/-! ### Unfolding and output lemmas for the full stemmer -/

theorem englishStem_eq (w : List Char) :
    englishStem w =
      if (w.map pyLower).length ≤ 2 then some (w.map pyLower)
      else
        match List.lookup (w.map pyLower) specialWords with
        | some s => some s
        | none => (runSteps (initialState (w.map pyLower))).map fun st =>
            st.word.map unY := rfl

theorem mem_of_lookup {a b : List Char} :
    ∀ {l : List (List Char × List Char)}, List.lookup a l = some b → (a, b) ∈ l := by
  intro l
  induction l with
  | nil => intro h; simp [List.lookup] at h
  | cons p ps ih =>
    intro h
    obtain ⟨k, v⟩ := p
    rw [show List.lookup a ((k, v) :: ps) =
        (match a == k with | true => some v | false => List.lookup a ps) from rfl] at h
    split at h
    · rename_i hbeq
      rw [Option.some.injEq] at h
      subst h
      have hk : a = k := eq_of_beq hbeq
      subst hk
      exact List.mem_cons_self _ _
    · exact List.mem_cons_of_mem _ (ih h)

theorem all_noUpper_map_unY {w : List Char} (h : CharInvW w) :
    (w.map unY).all (fun c => !(isAsciiUpper c)) = true := by
  rw [List.all_eq_true]
  intro c hc
  rw [List.mem_map] at hc
  obtain ⟨d, hd, rfl⟩ := hc
  unfold unY
  split
  · decide
  · rename_i hne
    by_cases hup : isAsciiUpper d = true
    · exact absurd (h d hd hup) hne
    · rw [Bool.not_eq_true] at hup
      rw [hup]
      rfl

theorem regionInv_of_inv3 {st : EState} (h : Inv3 st) : RegionInv st :=
  ⟨h.2.1.length_le, h.1.length_le, h.2.1, h.1⟩

/-! ### Characterization of the RV scanning loops -/

theorem rvScanVowel_eq (v : List Char) (l : List Char) :
    rvScanVowel v l = ((l.dropWhile fun c => decide (c ∉ v))).tail := by
  induction l with
  | nil => rfl
  | cons c cs ih =>
    by_cases h : c ∈ v
    · rw [show rvScanVowel v (c :: cs) = if c ∈ v then cs else rvScanVowel v cs
        from rfl, if_pos h, List.dropWhile_cons]
      simp [h]
    · rw [show rvScanVowel v (c :: cs) = if c ∈ v then cs else rvScanVowel v cs
        from rfl, if_neg h, List.dropWhile_cons]
      simp [h, ih]

theorem rvScanCons_eq (v : List Char) (l : List Char) :
    rvScanCons v l = ((l.dropWhile fun c => decide (c ∈ v))).tail := by
  induction l with
  | nil => rfl
  | cons c cs ih =>
    by_cases h : c ∈ v
    · rw [show rvScanCons v (c :: cs) = if c ∉ v then cs else rvScanCons v cs
        from rfl, if_neg (by simpa using h), List.dropWhile_cons]
      simp [h, ih]
    · rw [show rvScanCons v (c :: cs) = if c ∉ v then cs else rvScanCons v cs
        from rfl, if_pos h, List.dropWhile_cons]
      simp [h]

/-! ### The claims -/

/-- C1 (amended): for every accepted input (length > 2 after lowercasing, not a
special word), after each of steps 0, 1a, 1b, 1c, 2, 3 and 4 the region variables
satisfy `len(r2) ≤ len(r1) ≤ len(word)`, r2 is a literal suffix of r1 and r1 a
literal suffix of word; after step 5 the length chain and the r2-of-r1 suffix
relation still hold, but r1 need not be a suffix of word, because step 5 truncates
`word` without updating the region variables. -/
theorem c1_region_invariant (w : List Char)
    (_hlen : 2 < (w.map pyLower).length)
    (_hsp : List.lookup (w.map pyLower) specialWords = none) :
    ∃ s0 s1a s1b s2 s3 s4 s5,
      step0 (initialState (w.map pyLower)) = some s0 ∧ RegionInv s0 ∧
      step1a s0 = some s1a ∧ RegionInv s1a ∧
      step1b s1a = some s1b ∧ RegionInv s1b ∧
      RegionInv (step1c s1b) ∧
      step2 (step1c s1b) = some s2 ∧ RegionInv s2 ∧
      step3 s2 = some s3 ∧ RegionInv s3 ∧
      step4 s3 = some s4 ∧ RegionInv s4 ∧
      step5 s4 = some s5 ∧ s5.r2 <:+ s5.r1 ∧
        s5.r2.length ≤ s5.r1.length ∧ s5.r1.length ≤ s5.word.length := by
  obtain ⟨s0, s1a, s1b, s2, s3, s4, s5, e0, h0i, h0g, e1a, h1ai, h1ag, e1b, h1bi,
    h1ci, e2, h2i, e3, h3i, e4, h4i, e5, er1, er2, elen, echar, hrun⟩ :=
    runSteps_sound (initialState (w.map pyLower))
      (initialState_inv _ (noUpper_map_pyLower w))
  refine ⟨s0, s1a, s1b, s2, s3, s4, s5, e0, regionInv_of_inv3 h0i, e1a,
    regionInv_of_inv3 h1ai, e1b, regionInv_of_inv3 h1bi, regionInv_of_inv3 h1ci,
    e2, regionInv_of_inv3 h2i, e3, regionInv_of_inv3 h3i, e4,
    regionInv_of_inv3 h4i, e5, ?_, ?_, elen⟩
  · rw [er1, er2]
    exact h4i.2.1
  · rw [er1, er2]
    exact h4i.2.1.length_le

/-- C1 witness: the amended invariant theorem instantiated at "relational". -/
theorem c1_region_invariant_witness :
    ∃ s0 s1a s1b s2 s3 s4 s5,
      step0 (initialState (("relational".toList).map pyLower)) = some s0 ∧
        RegionInv s0 ∧
      step1a s0 = some s1a ∧ RegionInv s1a ∧
      step1b s1a = some s1b ∧ RegionInv s1b ∧
      RegionInv (step1c s1b) ∧
      step2 (step1c s1b) = some s2 ∧ RegionInv s2 ∧
      step3 s2 = some s3 ∧ RegionInv s3 ∧
      step4 s3 = some s4 ∧ RegionInv s4 ∧
      step5 s4 = some s5 ∧ s5.r2 <:+ s5.r1 ∧
        s5.r2.length ≤ s5.r1.length ∧ s5.r1.length ≤ s5.word.length :=
  c1_region_invariant ("relational".toList) (by decide) (by decide)

/-- C1 counterexample: on the accepted input "relational" the state after step 5 has
`word = "relat"`, `r1 = "ate"`, `r2 = "e"`, and r1 is not a literal suffix of word,
so the claimed invariant fails after step 5 as stated. -/
theorem c1_region_invariant_cex :
    2 < (("relational".toList).map pyLower).length ∧
    List.lookup (("relational".toList).map pyLower) specialWords = none ∧
    step5 ⟨"relate".toList, "ate".toList, "e".toList⟩ =
      some ⟨"relat".toList, "ate".toList, "e".toList⟩ ∧
    runSteps (initialState (("relational".toList).map pyLower)) =
      some ⟨"relat".toList, "ate".toList, "e".toList⟩ ∧
    ¬ ("ate".toList <:+ "relat".toList) := by decide

/-- C2 (amended): in every suffix-rule step of `EnglishStemmer.stem` the first rule
in table order whose suffix tail-matches the current word decides the whole step:
its body runs (applying the rule if its condition holds, and doing nothing
otherwise) and no later rule is tried; if no suffix tail-matches, the step leaves
the state unchanged. -/
theorem c2_first_match_amended (st : EState) :
    step0 st = applyFirstMatch step0Suffixes step0Action st ∧
    step1a st = applyFirstMatch step1aSuffixes step1aAction st ∧
    step1b st = applyFirstMatch step1bSuffixes step1bAction st ∧
    step2 st = applyFirstMatch step2Suffixes step2Action st ∧
    step3 st = applyFirstMatch step3Suffixes step3Action st ∧
    step4 st = applyFirstMatch step4Suffixes step4Action st :=
  ⟨ruleLoop_eq_firstMatch _ _ _, ruleLoop_eq_firstMatch _ _ _,
   ruleLoop_eq_firstMatch _ _ _, ruleLoop_eq_firstMatch _ _ _,
   ruleLoop_eq_firstMatch _ _ _, ruleLoop_eq_firstMatch _ _ _⟩

/-- C2 counterexample: at the step-2 state reached by the input "gentli"
(`word = "gentli"`, `r1 = "tli"`, `r2 = ""`), the earlier rule "entli"
tail-matches the word but its R1 condition fails, while the later rule "li"
tail-matches with its condition true (`word[-3] = 't'` is in the li-ending set);
step 2 nevertheless applies nothing, refuting the claim that later rules are
still tried. -/
theorem c2_first_match_cex :
    ("entli".toList ∈ step2Suffixes) ∧ ("li".toList ∈ step2Suffixes) ∧
    ("entli".toList <:+ "gentli".toList) ∧ ¬ ("entli".toList <:+ "tli".toList) ∧
    ("li".toList <:+ "gentli".toList) ∧ ("li".toList <:+ "tli".toList) ∧
    (pyIdx ("gentli".toList) 3 ∈ liEnding) ∧
    initialState (("gentli".toList).map pyLower) =
      ⟨"gentli".toList, "tli".toList, []⟩ ∧
    step2 ⟨"gentli".toList, "tli".toList, []⟩ =
      some ⟨"gentli".toList, "tli".toList, []⟩ ∧
    englishStem ("gentli".toList) = some ("gentli".toList) := by decide

/-- C3 counterexample: `EnglishStemmer.stem("relational")` does not return
"relate": step 2 rewrites ational→ate with the region variable r2 ending in "e",
and step 5 then deletes the final "e". -/
theorem c3_relational_cex :
    englishStem ("relational".toList) ≠ some ("relate".toList) := by decide

/-- C3 (amended): `EnglishStemmer.stem("relational")` returns "relat". -/
theorem c3_relational_amended :
    englishStem ("relational".toList) = some ("relat".toList) := by decide

/-- C4: the module defines only the English and Porter stemmer classes, so for
"german" — which is in the supported tuple and named as supported by the class
docstring — the `globals()` lookup raises `KeyError("GermanStemmer")` instead of
constructing a stemmer or raising the documented unsupported-language
`ValueError`; identifiers outside the tuple do get the `ValueError`, and
"english" does construct. -/
theorem c4_registry_eval :
    ("german".toList ∈ snowballLanguages) ∧
    snowballStemmerInit ("german".toList) =
      InitOutcome.keyError ("GermanStemmer".toList) ∧
    snowballStemmerInit ("klingon".toList) =
      InitOutcome.valueError ("klingon".toList) ∧
    snowballStemmerInit ("english".toList) =
      InitOutcome.ok ("EnglishStemmer".toList) := by decide

/-- C5 (amended): for words of length ≥ 2, `_rv_standard` scans for a vowel from
position 2 when the second character is a non-vowel; it scans for a non-vowel from
position 2 only when the two-character prefix is a contiguous substring of the
vowel string (Python's `word[:2] in vowels`), not when the first two characters
are both individually vowels; in the remaining case it returns `word[3:]`, and
for shorter words it returns the empty string. -/
theorem c5_rv_amended (c0 c1 : Char) (rest v : List Char) :
    rvStandard (c0 :: c1 :: rest) v =
      if c1 ∉ v then ((rest.dropWhile fun c => decide (c ∉ v))).tail
      else if [c0, c1] <:+: v then ((rest.dropWhile fun c => decide (c ∈ v))).tail
      else rest.drop 1 := by
  unfold rvStandard
  rw [if_pos (by simp only [List.length_cons]; omega)]
  have hget : (c0 :: c1 :: rest).getD 1 ' ' = c1 := rfl
  have htake : (c0 :: c1 :: rest).take 2 = [c0, c1] := rfl
  have hdrop2 : (c0 :: c1 :: rest).drop 2 = rest := rfl
  have hdrop3 : (c0 :: c1 :: rest).drop 3 = rest.drop 1 := rfl
  rw [hget, htake, hdrop2, hdrop3]
  by_cases h1 : c1 ∉ v
  · rw [if_pos h1, if_pos h1, rvScanVowel_eq]
  · rw [if_neg h1, if_neg h1]
    by_cases h2 : [c0, c1] <:+: v
    · rw [if_pos h2, if_pos h2, rvScanCons_eq]
    · rw [if_neg h2, if_neg h2]

/-- C5 counterexample: for "eaat" with the vowels "aeiouy" the first two
characters are both vowels, the spec's reading (suffix after the next non-vowel
from position 2) yields "", but `_rv_standard` takes its else branch (the pair
"ea" is not a substring of "aeiouy") and returns `word[3:] = "t"`. -/
theorem c5_rv_cex :
    ('e' ∈ "aeiouy".toList) ∧ ('a' ∈ "aeiouy".toList) ∧
    rvStandard ("eaat".toList) ("aeiouy".toList) = ['t'] ∧
    rvSpecBothVowels ("eaat".toList) ("aeiouy".toList) = [] ∧
    rvStandard ("eaat".toList) ("aeiouy".toList) ≠
      rvSpecBothVowels ("eaat".toList) ("aeiouy".toList) := by decide

/-- C6: `EnglishStemmer.stem` is total — for every input string it returns a
string; in the embedding every unguarded character index access is modelled by
`idxN`, which is `none` exactly when CPython would raise `IndexError`, so
`isSome` states that no reachable path indexes out of range. -/
theorem c6_stem_total : ∀ w : List Char, (englishStem w).isSome = true := by
  intro w
  rw [englishStem_eq]
  split
  · rfl
  split
  · rfl
  obtain ⟨s0, s1a, s1b, s2, s3, s4, s5, -, -, -, -, -, -, -, -, -, -, -, -, -, -,
    -, -, -, -, -, -, hrun⟩ :=
    runSteps_sound (initialState (w.map pyLower))
      (initialState_inv _ (noUpper_map_pyLower w))
  rw [hrun]
  rfl

/-- C7: for every key of the English special-word table, `stem` returns exactly
the table's value (the pipeline short-circuits at the table lookup). -/
theorem c7_special_words :
    specialWords.all (fun p => englishStem p.1 == some p.2) = true := by decide

/-- C8: for every input of length at most 2, `stem` returns the lowercased input
unchanged. -/
theorem c8_short_words (w : List Char) (h : w.length ≤ 2) :
    englishStem w = some (w.map pyLower) := by
  rw [englishStem_eq, if_pos (by rw [List.length_map]; exact h)]

/-- C8 witness: the length-floor theorem applied to "Ab". -/
theorem c8_short_words_witness :
    ("Ab".toList.length ≤ 2) ∧
    englishStem ("Ab".toList) = some (("Ab".toList).map pyLower) :=
  ⟨by decide, c8_short_words ("Ab".toList) (by decide)⟩

/-- C9: the second component of `_r1r2_standard` is the first component of
`_r1r2_standard` applied to the first component — R2 is R1's own R1. -/
theorem c9_r2_nested (w v : List Char) :
    (r1r2Standard w v).2 = (r1r2Standard (r1r2Standard w v).1 v).1 := rfl

/-- C10: every string returned by `stem` contains no ASCII uppercase character:
the internal "Y" marker is mapped back to "y" before returning, and the early
returns produce only lowercase output. -/
theorem c10_no_uppercase (w out : List Char) (h : englishStem w = some out) :
    out.all (fun c => !(isAsciiUpper c)) = true := by
  rw [englishStem_eq] at h
  split at h
  · rw [Option.some.injEq] at h
    subst h
    rw [List.all_eq_true]
    intro c hc
    rw [noUpper_map_pyLower w c hc]
    rfl
  split at h
  · rename_i s hlook
    rw [Option.some.injEq] at h
    subst h
    have hmem := mem_of_lookup hlook
    have hvals : ∀ p ∈ specialWords, p.2.all (fun c => !(isAsciiUpper c)) = true := by
      decide
    exact hvals _ hmem
  obtain ⟨s0, s1a, s1b, s2, s3, s4, s5, -, -, -, -, -, -, -, -, -, -, -, -, -, -,
    -, -, -, -, -, echar, hrun⟩ :=
    runSteps_sound (initialState (w.map pyLower))
      (initialState_inv _ (noUpper_map_pyLower w))
  rw [hrun] at h
  rw [show Option.map (fun st : EState => st.word.map unY) (some s5) =
    some (s5.word.map unY) from rfl, Option.some.injEq] at h
  subst h
  exact all_noUpper_map_unY echar

/-- C10 witness: the no-uppercase theorem applied to "yoyo". -/
theorem c10_no_uppercase_witness :
    (englishStem ("yoyo".toList) = some ("yoyo".toList)) ∧
    (("yoyo".toList).all (fun c => !(isAsciiUpper c)) = true) :=
  ⟨by decide, c10_no_uppercase ("yoyo".toList) ("yoyo".toList) (by decide)⟩

end Texsa
